import Mathlib

/-!
Verification of the witness-generation and HAL core of a zero-knowledge
virtual-machine prover.

The development shallowly embeds two source files:

* `risc0/circuit/rv32im/src/prove/engine/witgen.rs` — the witness generator
  (three-pass pipeline, ZK noise, sanitization);
* `risc0/zkp/src/hal/cuda.rs` — the accelerator HAL (buffers, slices,
  launch/synchronize discipline, `div_ceil`, `prefix_products`).

Pure functions are translated to Lean functions; buffers become lists or
functions from indices; machine integers are `Nat` with explicit bounds;
fallible code returns `Option`.  Parts of the repository that are only
declared, not defined, under `src/` (the machine step kernels, the field
extension arithmetic, the `ZK_CYCLES` constant) are modelled from the
specification and marked as such in their doc comments.
-/

namespace Risc0

/-- The BabyBear prime, p = 15·2^27 + 1. -/
def PRIME : Nat := 15 * 2 ^ 27 + 1

/-- Base field elements as their u32 encodings; canonical values lie below
`PRIME`, and one out-of-range bit pattern serves as a sentinel. -/
abbrev Fp := Nat

/-- The INVALID sentinel encoding of `BabyBearElem` (0xffffffff), a bit
pattern outside the canonical residue range. -/
def INVALID : Fp := 4294967295

/-- Transcribed from `BabyBearElem::valid_or_zero`: the element itself when
it is not the INVALID sentinel, ZERO otherwise. -/
def valid_or_zero (x : Fp) : Fp := if x = INVALID then 0 else x

/-! ## `div_ceil` (cuda.rs) -/

/-- Largest u32 value. -/
def U32_MAX : Nat := 4294967295

/-- Rust `u32::checked_add`: `none` exactly when the mathematical sum
overflows a u32. -/
def checked_add (a b : Nat) : Option Nat :=
  if a + b ≤ U32_MAX then some (a + b) else none

/-- Transcribed from `div_ceil` in cuda.rs:
`(a.checked_add(b).unwrap() - 1) / b`.  Both panics are modelled as `none`,
in evaluation order: first the `unwrap` on u32 overflow, then the Rust
division-by-zero panic at `b = 0`.  For `b ≥ 1` the subtraction `s - 1`
cannot underflow, since `s = a + b ≥ 1`. -/
def div_ceil (a b : Nat) : Option Nat :=
  (checked_add a b).bind (fun s => if b = 0 then none else some ((s - 1) / b))

/-- Stated from the spec's words, for comparison with the source: a plain
`(a + b - 1) / b` computed with wrapping (unprotected) u32 addition. -/
def div_ceil_unchecked (a b : Nat) : Nat :=
  (((a + b) % 2 ^ 32 + 2 ^ 32) - 1) % 2 ^ 32 / b

/-! ## `BufferImpl` (cuda.rs): slices, views, `view_mut` -/

/-- Transcribed from `BufferImpl<T>` in cuda.rs: a reference to a shared raw
allocation (`store`, the full `RawBuffer` contents), a logical size, and an
offset into the allocation. -/
structure BufferImpl (α : Type) where
  store : List α
  size : Nat
  offset : Nat
deriving Repr, DecidableEq

variable {α : Type}

/-- Transcribed from `BufferImpl::slice`: asserts `offset + size <= self.size`
(modelled as `none` on failure) and otherwise returns a view sharing the same
underlying storage with the accumulated offset. -/
def BufferImpl.slice (b : BufferImpl α) (off len : Nat) : Option (BufferImpl α) :=
  if off + len ≤ b.size then
    some { store := b.store, size := len, offset := b.offset + off }
  else
    none

/-- Transcribed from `BufferImpl::view`: reads `size` elements of the
allocation starting at `offset`. -/
def BufferImpl.view (b : BufferImpl α) : List α :=
  (b.store.drop b.offset).take b.size

/-- The argument `view_mut` passes to its callback: the host copy of the
allocation from `offset` through the end (`&mut slice[self.offset..]` in the
source) — not truncated to the logical size. -/
def BufferImpl.viewMutArg (b : BufferImpl α) : List α :=
  b.store.drop b.offset

/-- Transcribed from `BufferImpl::view_mut`: copies the whole allocation to
the host, hands the callback everything from `offset` to the end, and writes
the whole allocation back. -/
def BufferImpl.view_mut (b : BufferImpl α) (f : List α → List α) : BufferImpl α :=
  { b with store := b.store.take b.offset ++ f (b.store.drop b.offset) }

/-! ## `FpExt` and `prefix_products` (cuda.rs) -/

/-- Base field as a ring, for the extension-field arithmetic. -/
abbrev Fq := ZMod PRIME

/-- Modelled from the spec: `FpExt` is the degree-4 extension of the BabyBear
field; four base-field coefficients. -/
structure FpExt where
  c0 : Fq
  c1 : Fq
  c2 : Fq
  c3 : Fq

/-- Modelled from the spec: the quartic non-residue defining the extension
(multiplication is polynomial multiplication modulo x^4 − BETA). -/
def BETA : Fq := 11

/-- Modelled from the spec: multiplication in the degree-4 extension,
reducing x^4 to BETA. -/
def FpExt.mul (a b : FpExt) : FpExt where
  c0 := a.c0 * b.c0 + BETA * (a.c1 * b.c3 + a.c2 * b.c2 + a.c3 * b.c1)
  c1 := a.c0 * b.c1 + a.c1 * b.c0 + BETA * (a.c2 * b.c3 + a.c3 * b.c2)
  c2 := a.c0 * b.c2 + a.c1 * b.c1 + a.c2 * b.c0 + BETA * (a.c3 * b.c3)
  c3 := a.c0 * b.c3 + a.c1 * b.c2 + a.c2 * b.c1 + a.c3 * b.c0

/-- The multiplicative identity of the extension. -/
def FpExt.one : FpExt := ⟨1, 0, 0, 0⟩

/-- The loop body of `prefix_products`: entering with the already-updated
previous element `p`, each remaining element is replaced by
`io[i] * io[i-1]`. -/
def prodLoop (p : FpExt) : List FpExt → List FpExt
  | [] => []
  | x :: xs => x.mul p :: prodLoop (x.mul p) xs

/-- Transcribed from `CudaHal::prefix_products` (cuda.rs): in place, for
`i in 1..len`, `io[i] *= io[i - 1]`. -/
def prefix_products : List FpExt → List FpExt
  | [] => []
  | a :: xs => a :: prodLoop a xs

/-- Stated from the spec's words, for comparison with the source: entry `i`
is the running product `io_old[0] * io_old[1] * ... * io_old[i]`. -/
def runningProducts (l : List FpExt) : List FpExt :=
  (List.range l.length).map (fun i => (l.take (i + 1)).foldl FpExt.mul FpExt.one)

/-! ## Witness generator: ZK noise, sanitization, `execute` (witgen.rs) -/

/-- The three witness buffers of `WitnessGenerator`, as functions from flat
cell index to element: `ctrl`, `data` (column-major, `col * steps + cycle`),
and the public `io` vector. -/
structure WitBufs where
  ctrl : Nat → Fp
  data : Nat → Fp
  io : Nat → Fp

/-- One iteration (index `i` of `ZK_CYCLES`) of the noise loop in
`WitnessGenerator::execute`: at `cycle = steps - zk + i`, zero every ctrl
column cell and set every data column cell to the next random draw.  The
random generator is modelled as an oracle stream `rng`, consumed in loop
order (`i * dataSize + j` for column `j`). -/
def noiseStep (steps ctrlSize dataSize zk : Nat) (rng : Nat → Fp) (b : WitBufs)
    (i : Nat) : WitBufs :=
  let cycle := steps - zk + i
  { ctrl := (List.range ctrlSize).foldl
      (fun c j => Function.update c (j * steps + cycle) 0) b.ctrl
    data := (List.range dataSize).foldl
      (fun d j => Function.update d (j * steps + cycle) (rng (i * dataSize + j))) b.data
    io := b.io }

/-- The full ZK-noise pass, transcribed from `WitnessGenerator::execute`:
the loop `for i in 0..ZK_CYCLES`. -/
def writeNoise (steps ctrlSize dataSize zk : Nat) (rng : Nat → Fp) (b : WitBufs) : WitBufs :=
  (List.range zk).foldl (noiseStep steps ctrlSize dataSize zk rng) b

/-- The sanitization pass, transcribed from `WitnessGenerator::execute`:
`valid_or_zero` applied element-wise to all of `data` and `io` (and not to
`ctrl`). -/
def sanitize (b : WitBufs) : WitBufs :=
  { ctrl := b.ctrl
    data := fun i => valid_or_zero (b.data i)
    io := fun i => valid_or_zero (b.io i) }

/-- The `?` operator on a phase result: an error short-circuits with the
buffers the phase left behind; success feeds them to the continuation. -/
def phaseThen {E : Type} (r : Option E × WitBufs)
    (k : WitBufs → Option E × WitBufs) : Option E × WitBufs :=
  match r with
  | (some e, b') => (some e, b')
  | (none, b') => k b'

/-- Transcribed from `WitnessGenerator::execute`: run the three fallible
compute phases in order with `?`-style short-circuit, then the ZK-noise
pass, then sanitization.  The phases (whose internals live in
`MachineContext`) are parameters; each returns its error verdict together
with the buffers it leaves behind, matching in-place mutation plus
`Result`. -/
def WitnessGenerator.execute {E : Type} (p1 p2 p3 : WitBufs → Option E × WitBufs)
    (steps ctrlSize dataSize zk : Nat) (rng : Nat → Fp) (b : WitBufs) :
    Option E × WitBufs :=
  phaseThen (p1 b) (fun b1 =>
    phaseThen (p2 b1) (fun b2 =>
      phaseThen (p3 b2) (fun b3 =>
        (none, sanitize (writeNoise steps ctrlSize dataSize zk rng b3)))))

/-! ## Phase event traces (witgen.rs `compute_*`) -/

/-- The two sort domains of the machine context. -/
inductive SortDom
  | ram
  | bytes
deriving DecidableEq

/-- Observable events of a `compute_*` phase: the loader run, a column sort,
a back-injection at a cycle, a step at a cycle. -/
inductive WitEvent
  | load
  | sortEv (dom : SortDom)
  | inject (cycle : Nat)
  | step (cycle : Nat)
deriving DecidableEq

/-- Event trace of `WitnessGenerator::compute_execute`: loader, then (unless
the `seq` feature is on) back-injection over `[0, last_cycle)`, then stepping
over `[0, last_cycle)`. -/
def computeExecuteEvents (lastCycle : Nat) (seqMode : Bool) : List WitEvent :=
  [WitEvent.load]
    ++ (if seqMode then [] else (List.range lastCycle).map WitEvent.inject)
    ++ (List.range lastCycle).map WitEvent.step

/-- Event trace of `WitnessGenerator::compute_verify_ram`:
`last_cycle = steps - ZK_CYCLES`, sort of the ram columns, back-injection
over `[0, last_cycle)` (parallel mode), stepping over `[0, last_cycle)`. -/
def computeVerifyRamEvents (steps zk : Nat) (seqMode : Bool) : List WitEvent :=
  let lastCycle := steps - zk
  [WitEvent.sortEv SortDom.ram]
    ++ (if seqMode then [] else (List.range lastCycle).map WitEvent.inject)
    ++ (List.range lastCycle).map WitEvent.step

/-- Event trace of `WitnessGenerator::compute_verify_bytes`:
`last_cycle = steps - ZK_CYCLES`, sort of the bytes columns, back-injection
over `[1, last_cycle)` (parallel mode, `for cycle in 1..last_cycle`),
stepping over `[0, last_cycle)`. -/
def computeVerifyBytesEvents (steps zk : Nat) (seqMode : Bool) : List WitEvent :=
  let lastCycle := steps - zk
  [WitEvent.sortEv SortDom.bytes]
    ++ (if seqMode then [] else (List.range' 1 (lastCycle - 1)).map WitEvent.inject)
    ++ (List.range lastCycle).map WitEvent.step

/-- The cycles at which a trace performs back-injection, in order. -/
def injectCycles (evs : List WitEvent) : List Nat :=
  evs.filterMap (fun e =>
    match e with
    | WitEvent.inject c => some c
    | _ => none)

/-! ## HAL call/synchronization discipline (cuda.rs) -/

/-- Actions a HAL method performs against the device, in program order: an
asynchronous kernel launch on the HAL stream, an explicit
`stream.synchronize()`, a call into an external batch routine (modelled from
the spec as blocking), and a synchronous host/device memory copy. -/
inductive StreamAction
  | launch
  | syncStream
  | extCall
  | hostCopy
deriving DecidableEq

/-- The public operations of the `Hal` implementation in cuda.rs. -/
inductive HalOp
  | allocElem
  | copyFromElem
  | allocExtelem
  | copyFromExtelem
  | allocDigest
  | copyFromDigest
  | allocU32
  | copyFromU32
  | batchExpandIntoEvaluateNtt
  | batchInterpolateNtt
  | batchBitReverse
  | batchEvaluateAny
  | gatherSample
  | hasUnifiedMemory
  | zkShift
  | mixPolyCoeffs
  | eltwiseAddElem
  | eltwiseSumExtelem
  | eltwiseCopyElem
  | friFold
  | hashFold
  | hashRows
  | getHashSuite
  | prefixProducts
deriving DecidableEq

/-- Transcribed from the bodies of the `Hal` impl in cuda.rs: the sequence of
device actions each public method performs before returning.
`gather_sample` and `mix_poly_coeffs` launch on the stream and return with no
`stream.synchronize()`; every other launching method ends with a synchronize
(`hash_fold` and `hash_rows` delegate to the hash implementation, and all
three hash suites launch then synchronize; the sppark-backed batch routines
are modelled from the spec as blocking external calls). -/
def opActions : HalOp → List StreamAction
  | HalOp.allocElem => []
  | HalOp.copyFromElem => [StreamAction.hostCopy]
  | HalOp.allocExtelem => []
  | HalOp.copyFromExtelem => [StreamAction.hostCopy]
  | HalOp.allocDigest => []
  | HalOp.copyFromDigest => [StreamAction.hostCopy]
  | HalOp.allocU32 => []
  | HalOp.copyFromU32 => [StreamAction.hostCopy]
  | HalOp.batchExpandIntoEvaluateNtt => [StreamAction.extCall, StreamAction.extCall]
  | HalOp.batchInterpolateNtt => [StreamAction.extCall]
  | HalOp.batchBitReverse => [StreamAction.launch, StreamAction.syncStream]
  | HalOp.batchEvaluateAny => [StreamAction.launch, StreamAction.syncStream]
  | HalOp.gatherSample => [StreamAction.launch]
  | HalOp.hasUnifiedMemory => []
  | HalOp.zkShift => [StreamAction.extCall]
  | HalOp.mixPolyCoeffs =>
    [StreamAction.hostCopy, StreamAction.hostCopy, StreamAction.launch]
  | HalOp.eltwiseAddElem => [StreamAction.launch, StreamAction.syncStream]
  | HalOp.eltwiseSumExtelem => [StreamAction.launch, StreamAction.syncStream]
  | HalOp.eltwiseCopyElem => [StreamAction.launch, StreamAction.syncStream]
  | HalOp.friFold =>
    [StreamAction.hostCopy, StreamAction.launch, StreamAction.syncStream]
  | HalOp.hashFold => [StreamAction.launch, StreamAction.syncStream]
  | HalOp.hashRows => [StreamAction.launch, StreamAction.syncStream]
  | HalOp.getHashSuite => []
  | HalOp.prefixProducts => [StreamAction.hostCopy, StreamAction.hostCopy]

/-- Whether asynchronous stream work is still outstanding after the given
actions run in order: a launch enqueues, a synchronize or a blocking external
call drains, a host copy leaves the stream as it is. -/
def pendingWork (acts : List StreamAction) : Bool :=
  acts.foldl
    (fun p a =>
      match a with
      | StreamAction.launch => true
      | StreamAction.syncStream => false
      | StreamAction.extCall => false
      | StreamAction.hostCopy => p)
    false

/-- A HAL operation blocks until its enqueued device work has completed
exactly when no stream work is outstanding when it returns. -/
def syncAtReturn (op : HalOp) : Bool := !pendingWork (opActions op)

/-! ## Sequential versus parallel stepping (witgen.rs phases) -/

/-- Modelled from the spec: one witness-generation phase over a buffer of
per-cycle rows.  `get`/`set` isolate the column component the phase writes;
`stepf c hist` is the deterministic step kernel for cycle `c`, which may read
`hist` at its own component only within the back window `[c - w, c)` and at
the other components arbitrarily (`frame`); for cycles below `start` the
kernel reads no back cells at all (`noread` — the byte kernel at cycle 0
reads only `cycle - 1`, hence nothing). -/
structure PhaseSpec (Row Comp : Type) where
  get : Row → Comp
  set : Row → Comp → Row
  w : Nat
  start : Nat
  stepf : Nat → (Nat → Row) → Comp
  get_set : ∀ r x, get (set r x) = x
  set_set : ∀ r x y, set (set r x) y = set r y
  set_get : ∀ r, set r (get r) = r
  frame : ∀ c f g, start ≤ c →
    (∀ r x, set (f r) x = set (g r) x) →
    (∀ r, r < c → c ≤ r + w → get (f r) = get (g r)) →
    stepf c f = stepf c g
  noread : ∀ c f g, c < start →
    (∀ r x, set (f r) x = set (g r) x) →
    stepf c f = stepf c g

variable {Row Comp : Type}

/-- Sequential mode (the `seq` feature): a plain loop over cycles, each step
writing its component of its own row, reading the buffer as it stands. -/
def seqRun (ph : PhaseSpec Row Comp) (last : Nat) (d0 : Nat → Row) : Nat → Row :=
  (List.range last).foldl
    (fun d c => Function.update d c (ph.set (d c) (ph.stepf c d))) d0

/-- The canonical (trace-determined) component value of each row: the value
the step kernel produces when every back cell it reads already holds the
canonical value of that earlier row. -/
def phaseVal (ph : PhaseSpec Row Comp) (d0 : Nat → Row) : Nat → Comp
  | c => ph.stepf c (fun r => if h : r < c then ph.set (d0 r) (phaseVal ph d0 r) else d0 r)
termination_by c => c

/-- The buffer in which every row carries its canonical component value. -/
def phaseIdeal (ph : PhaseSpec Row Comp) (d0 : Nat → Row) : Nat → Row :=
  fun r => ph.set (d0 r) (phaseVal ph d0 r)

/-- Modelled from the spec: `inject_*_backs` at cycle `c` pre-populates the
back cells `c - k`, `k ∈ [1, w]`, with their trace-determined values
(idempotent with sequential stepping). -/
def injectBacks (ph : PhaseSpec Row Comp) (d0 : Nat → Row) (d : Nat → Row)
    (c : Nat) : Nat → Row :=
  (List.range' 1 ph.w).foldl
    (fun d k =>
      if k ≤ c then
        Function.update d (c - k) (ph.set (d (c - k)) (phaseVal ph d0 (c - k)))
      else d)
    d

/-- The strictly sequential back-injection loop of the parallel mode,
transcribed from `compute_*`: `for cycle in start..last_cycle`. -/
def injectRun (ph : PhaseSpec Row Comp) (last : Nat) (d0 : Nat → Row) : Nat → Row :=
  (List.range' ph.start (last - ph.start)).foldl (injectBacks ph d0) d0

/-- A row is among the back cells written by the injection loop. -/
def injectedIn (start last w q : Nat) : Prop :=
  ∃ c ∈ List.range' start (last - start), ∃ k ∈ List.range' 1 w, k ≤ c ∧ q = c - k

instance (start last w q : Nat) : Decidable (injectedIn start last w q) := by
  unfold injectedIn
  exact List.decidableBEx _ _

/-- Parallel mode: the injection loop runs first; then the per-cycle steps
are dispatched in parallel, each reading only the injected buffer and
writing its own row. -/
def parRun (ph : PhaseSpec Row Comp) (last : Nat) (d0 : Nat → Row) : Nat → Row :=
  fun r =>
    if r < last then
      ph.set (injectRun ph last d0 r) (ph.stepf r (injectRun ph last d0))
    else injectRun ph last d0 r

/-- Full pipeline state: control buffer, data rows, io. -/
structure ExecState (Ctrl Row Io : Type) where
  ctrl : Ctrl
  dataF : Nat → Row
  io : Io

/-- Everything `WitnessGenerator::execute` composes: the loader (writing ctrl
and returning `last_cycle`), the three phases, the trace length, `ZK_CYCLES`,
the ctrl-zeroing of the noise block, and the element-wise sanitization
maps — each identical between the two modes. -/
structure WitgenModel (Ctrl Row Comp Io : Type) where
  loadCtrl : Ctrl → Ctrl × Nat
  phExec : PhaseSpec Row Comp
  phRam : PhaseSpec Row Comp
  phBytes : PhaseSpec Row Comp
  steps : Nat
  zk : Nat
  zeroCtrlZk : Ctrl → Ctrl
  sanRow : Row → Row
  sanIo : Io → Io

variable {Ctrl Io : Type}

/-- `execute` in sequential mode: loader, three sequential phases, ZK noise
over the trailing `zk` cycles, sanitization. -/
def executeSeqM (m : WitgenModel Ctrl Row Comp Io) (rng : Nat → Row)
    (s : ExecState Ctrl Row Io) : ExecState Ctrl Row Io :=
  let load := m.loadCtrl s.ctrl
  let d1 := seqRun m.phExec load.2 s.dataF
  let d2 := seqRun m.phRam (m.steps - m.zk) d1
  let d3 := seqRun m.phBytes (m.steps - m.zk) d2
  let d4 := fun r => if m.steps - m.zk ≤ r ∧ r < m.steps then rng r else d3 r
  { ctrl := m.zeroCtrlZk load.1
    dataF := fun r => m.sanRow (d4 r)
    io := m.sanIo s.io }

/-- `execute` in parallel mode: identical, except that each phase runs its
back-injection loop followed by the parallel step dispatch, and the noise
block draws from its own random stream. -/
def executeParM (m : WitgenModel Ctrl Row Comp Io) (rng : Nat → Row)
    (s : ExecState Ctrl Row Io) : ExecState Ctrl Row Io :=
  let load := m.loadCtrl s.ctrl
  let d1 := parRun m.phExec load.2 s.dataF
  let d2 := parRun m.phRam (m.steps - m.zk) d1
  let d3 := parRun m.phBytes (m.steps - m.zk) d2
  let d4 := fun r => if m.steps - m.zk ≤ r ∧ r < m.steps then rng r else d3 r
  { ctrl := m.zeroCtrlZk load.1
    dataF := fun r => m.sanRow (d4 r)
    io := m.sanIo s.io }

/-! ## Concrete instances for exercising the theorems -/

/-- A tiny concrete phase: rows are pairs, the phase owns the first
component, window 1, the step reads the previous row component. -/
def wPhase (s0 : Nat) : PhaseSpec (Nat × Nat) Nat where
  get := Prod.fst
  set := fun r x => (x, r.2)
  w := 1
  start := s0
  stepf := fun c f => if s0 ≤ c ∧ 1 ≤ c then (f (c - 1)).1 + 1 else 7
  get_set := fun _ _ => rfl
  set_set := fun _ _ _ => rfl
  set_get := fun _ => rfl
  frame := by
    intro c f g hc hoff hwin
    by_cases h : s0 ≤ c ∧ 1 ≤ c
    · have hg := hwin (c - 1) (by omega) (by omega)
      simp only [if_pos h, hg]
    · simp only [if_neg h]
  noread := by
    intro c f g hc hoff
    have h : ¬(s0 ≤ c ∧ 1 ≤ c) := by omega
    simp only [if_neg h]

/-- A tiny concrete pipeline model over `wPhase`. -/
def wModel : WitgenModel Nat (Nat × Nat) Nat Nat where
  loadCtrl := fun c => (c + 1, 2)
  phExec := wPhase 0
  phRam := wPhase 0
  phBytes := wPhase 1
  steps := 8
  zk := 4
  zeroCtrlZk := fun c => c
  sanRow := fun r => r
  sanIo := fun i => i + 1

/-- Concrete always-failing phase, for exercising the short-circuit. -/
def cPhaseErr : WitBufs → Option Nat × WitBufs := fun b => (some 7, b)

/-- Concrete always-succeeding identity phase. -/
def cPhaseOk : WitBufs → Option Nat × WitBufs := fun b => (none, b)

/-- Concrete starting buffers: data all INVALID, ctrl and io zero. -/
def cBufs : WitBufs :=
  { ctrl := fun _ => 0, data := fun _ => INVALID, io := fun _ => 0 }

/-! ### Helper lemmas on folds of pointwise updates -/

theorem foldl_update_ne {β : Type} (f : Nat → Nat) (v : Nat → β) (l : List Nat)
    (d : Nat → β) (i : Nat) (h : ∀ j ∈ l, f j ≠ i) :
    (l.foldl (fun d j => Function.update d (f j) (v j)) d) i = d i := by
  induction l generalizing d with
  | nil => rfl
  | cons a t ih =>
    simp only [List.foldl_cons]
    rw [ih _ (fun j hj => h j (List.mem_cons_of_mem a hj))]
    exact Function.update_noteq (Ne.symm (h a (List.mem_cons_self a t))) _ _

theorem foldl_update_eq {β : Type} (f : Nat → Nat) (v : Nat → β) (l : List Nat)
    (d : Nat → β) (j : Nat) (hj : j ∈ l)
    (hinj : ∀ j' ∈ l, f j' = f j → j' = j) :
    (l.foldl (fun d j => Function.update d (f j) (v j)) d) (f j) = v j := by
  induction l generalizing d with
  | nil => cases hj
  | cons a t ih =>
    simp only [List.foldl_cons]
    by_cases hjt : j ∈ t
    · exact ih _ hjt (fun j' hj' => hinj j' (List.mem_cons_of_mem a hj'))
    · have hja : j = a := by
        rcases List.mem_cons.mp hj with h | h
        · exact h
        · exact absurd h hjt
      subst hja
      rw [foldl_update_ne f v t _ _ ?_]
      · exact Function.update_same _ _ _
      · intro j' hj' heq
        exact absurd (hinj j' (List.mem_cons_of_mem j hj') heq ▸ hj') hjt

/-- Injectivity of the column-major cell index over the ZK block: with
`0 < steps` and `zk ≤ steps`, distinct `(column, noise-iteration)` pairs hit
distinct cells. -/
theorem cellIndex_inj (steps zk : Nat) (hs : 0 < steps) (hzk : zk ≤ steps)
    {j j' i i' : Nat} (hi : i < zk) (hi' : i' < zk)
    (h : j * steps + (steps - zk + i) = j' * steps + (steps - zk + i')) :
    j = j' ∧ i = i' := by
  have hc : steps - zk + i < steps := by omega
  have hc' : steps - zk + i' < steps := by omega
  have e1 : (j * steps + (steps - zk + i)) % steps = steps - zk + i := by
    rw [Nat.add_comm, Nat.add_mul_mod_self_right, Nat.mod_eq_of_lt hc]
  have e2 : (j' * steps + (steps - zk + i')) % steps = steps - zk + i' := by
    rw [Nat.add_comm, Nat.add_mul_mod_self_right, Nat.mod_eq_of_lt hc']
  have hmod : steps - zk + i = steps - zk + i' := by rw [← e1, ← e2, h]
  have hj : j * steps = j' * steps := by omega
  exact ⟨Nat.eq_of_mul_eq_mul_right hs hj, by omega⟩

theorem noiseStep_ctrl_eq (steps cs ds zk : Nat) (rng : Nat → Fp) (b : WitBufs)
    (i j : Nat) (hs : 0 < steps) (hj : j < cs) :
    (noiseStep steps cs ds zk rng b i).ctrl (j * steps + (steps - zk + i)) = 0 := by
  unfold noiseStep
  exact foldl_update_eq (fun j => j * steps + (steps - zk + i)) (fun _ => 0)
    (List.range cs) b.ctrl j (List.mem_range.mpr hj)
    (fun j' _ h => Nat.eq_of_mul_eq_mul_right hs (Nat.add_right_cancel h))

theorem noiseStep_data_eq (steps cs ds zk : Nat) (rng : Nat → Fp) (b : WitBufs)
    (i j : Nat) (hs : 0 < steps) (hj : j < ds) :
    (noiseStep steps cs ds zk rng b i).data (j * steps + (steps - zk + i)) =
      rng (i * ds + j) := by
  unfold noiseStep
  exact foldl_update_eq (fun j => j * steps + (steps - zk + i))
    (fun j => rng (i * ds + j)) (List.range ds) b.data j (List.mem_range.mpr hj)
    (fun j' _ h => Nat.eq_of_mul_eq_mul_right hs (Nat.add_right_cancel h))

theorem noiseStep_ctrl_ne (steps cs ds zk : Nat) (rng : Nat → Fp) (b : WitBufs)
    (i x : Nat) (hx : ∀ j, j < cs → j * steps + (steps - zk + i) ≠ x) :
    (noiseStep steps cs ds zk rng b i).ctrl x = b.ctrl x := by
  unfold noiseStep
  exact foldl_update_ne _ _ (List.range cs) b.ctrl x
    (fun j hj => hx j (List.mem_range.mp hj))

theorem noiseStep_data_ne (steps cs ds zk : Nat) (rng : Nat → Fp) (b : WitBufs)
    (i x : Nat) (hx : ∀ j, j < ds → j * steps + (steps - zk + i) ≠ x) :
    (noiseStep steps cs ds zk rng b i).data x = b.data x := by
  unfold noiseStep
  exact foldl_update_ne _ _ (List.range ds) b.data x
    (fun j hj => hx j (List.mem_range.mp hj))

theorem foldNoise_ctrl_ne (steps cs ds zk : Nat) (rng : Nat → Fp) (L : List Nat)
    (b : WitBufs) (x : Nat)
    (hx : ∀ i ∈ L, ∀ j, j < cs → j * steps + (steps - zk + i) ≠ x) :
    (L.foldl (noiseStep steps cs ds zk rng) b).ctrl x = b.ctrl x := by
  induction L generalizing b with
  | nil => rfl
  | cons a t ih =>
    simp only [List.foldl_cons]
    rw [ih _ (fun i h => hx i (List.mem_cons_of_mem a h))]
    exact noiseStep_ctrl_ne steps cs ds zk rng b a x
      (fun j hj => hx a (List.mem_cons_self a t) j hj)

theorem foldNoise_data_ne (steps cs ds zk : Nat) (rng : Nat → Fp) (L : List Nat)
    (b : WitBufs) (x : Nat)
    (hx : ∀ i ∈ L, ∀ j, j < ds → j * steps + (steps - zk + i) ≠ x) :
    (L.foldl (noiseStep steps cs ds zk rng) b).data x = b.data x := by
  induction L generalizing b with
  | nil => rfl
  | cons a t ih =>
    simp only [List.foldl_cons]
    rw [ih _ (fun i h => hx i (List.mem_cons_of_mem a h))]
    exact noiseStep_data_ne steps cs ds zk rng b a x
      (fun j hj => hx a (List.mem_cons_self a t) j hj)

theorem foldNoise_io (steps cs ds zk : Nat) (rng : Nat → Fp) (L : List Nat)
    (b : WitBufs) : (L.foldl (noiseStep steps cs ds zk rng) b).io = b.io := by
  induction L generalizing b with
  | nil => rfl
  | cons a t ih =>
    simp only [List.foldl_cons]
    rw [ih]
    rfl

theorem foldNoise_ctrl_eq (steps cs ds zk : Nat) (rng : Nat → Fp)
    (hs : 0 < steps) (hzk : zk ≤ steps) (L : List Nat) (b : WitBufs)
    (i j : Nat) (hL : ∀ i' ∈ L, i' < zk) (hnd : L.Nodup) (hiL : i ∈ L) (hj : j < cs) :
    ((L.foldl (noiseStep steps cs ds zk rng) b).ctrl (j * steps + (steps - zk + i)) = 0) := by
  induction L generalizing b with
  | nil => cases hiL
  | cons a t ih =>
    simp only [List.foldl_cons]
    rcases List.nodup_cons.mp hnd with ⟨hat, hndt⟩
    by_cases hit : i ∈ t
    · exact ih _ (fun i' h => hL i' (List.mem_cons_of_mem a h)) hndt hit
    · have hia : i = a := by
        rcases List.mem_cons.mp hiL with h | h
        · exact h
        · exact absurd h hit
      subst hia
      rw [foldNoise_ctrl_ne steps cs ds zk rng t _ _ (fun i' hi' j' hj' hcell => by
        have hii := cellIndex_inj steps zk hs hzk
          (hL i' (List.mem_cons_of_mem i hi')) (hL i (List.mem_cons_self i t)) hcell
        exact hit (hii.2 ▸ hi'))]
      exact noiseStep_ctrl_eq steps cs ds zk rng b i j hs hj

theorem foldNoise_data_eq (steps cs ds zk : Nat) (rng : Nat → Fp)
    (hs : 0 < steps) (hzk : zk ≤ steps) (L : List Nat) (b : WitBufs)
    (i j : Nat) (hL : ∀ i' ∈ L, i' < zk) (hnd : L.Nodup) (hiL : i ∈ L) (hj : j < ds) :
    ((L.foldl (noiseStep steps cs ds zk rng) b).data (j * steps + (steps - zk + i)) =
      rng (i * ds + j)) := by
  induction L generalizing b with
  | nil => cases hiL
  | cons a t ih =>
    simp only [List.foldl_cons]
    rcases List.nodup_cons.mp hnd with ⟨hat, hndt⟩
    by_cases hit : i ∈ t
    · exact ih _ (fun i' h => hL i' (List.mem_cons_of_mem a h)) hndt hit
    · have hia : i = a := by
        rcases List.mem_cons.mp hiL with h | h
        · exact h
        · exact absurd h hit
      subst hia
      rw [foldNoise_data_ne steps cs ds zk rng t _ _ (fun i' hi' j' hj' hcell => by
        have hii := cellIndex_inj steps zk hs hzk
          (hL i' (List.mem_cons_of_mem i hi')) (hL i (List.mem_cons_self i t)) hcell
        exact hit (hii.2 ▸ hi'))]
      exact noiseStep_data_eq steps cs ds zk rng b i j hs hj

theorem FpExt.mul_comm (a b : FpExt) : a.mul b = b.mul a := by
  cases a; cases b
  simp only [FpExt.mul, FpExt.mk.injEq]
  refine ⟨by ring, by ring, by ring, by ring⟩

theorem FpExt.one_mul (a : FpExt) : FpExt.one.mul a = a := by
  cases a
  simp only [FpExt.mul, FpExt.one, FpExt.mk.injEq, BETA]
  refine ⟨by ring, by ring, by ring, by ring⟩

theorem prodLoop_spec (xs : List FpExt) (p : FpExt) :
    prodLoop p xs =
      (List.range xs.length).map (fun i => (xs.take (i + 1)).foldl FpExt.mul p) := by
  induction xs generalizing p with
  | nil => simp [prodLoop]
  | cons x xs ih =>
    simp only [prodLoop, List.length_cons, List.range_succ_eq_map, List.map_cons,
      List.map_map]
    congr 1
    · simp [FpExt.mul_comm x p]
    · rw [ih (x.mul p)]
      apply List.map_congr_left
      intro i _
      simp only [Function.comp_apply, List.take_succ_cons, List.foldl_cons]
      rw [FpExt.mul_comm p x]


/-- Claim C9: `prefix_products` replaces the buffer by its running products:
entry `i` becomes the product of the first `i + 1` original elements, so
`[a, b, c, d]` becomes `[a, ab, abc, abcd]`. -/
theorem c9_prefix_products (l : List FpExt) :
    prefix_products l = runningProducts l := by
  cases l with
  | nil => rfl
  | cons a xs =>
    simp only [prefix_products, runningProducts, List.length_cons,
      List.range_succ_eq_map, List.map_cons, List.map_map]
    congr 1
    · simp [FpExt.one_mul]
    · rw [prodLoop_spec]
      apply List.map_congr_left
      intro i _
      simp only [Function.comp_apply, List.take_succ_cons, List.foldl_cons,
        FpExt.one_mul]

/-- Claim C6 as stated is false: at `a = u32::MAX`, `b = 1` the source
`div_ceil` detects the overflow through `checked_add` (modelled `none`)
instead of computing the unprotected `(a + b - 1) / b`. -/
theorem c6_counterexample :
    div_ceil 4294967295 1 ≠ some ((4294967295 + 1 - 1) / 1) := by decide

/-- Claim C6 (amended): `div_ceil` computes `(a + b - 1) / b` through
`checked_add`, so the addition is overflow-checked rather than unprotected:
for `b ≥ 1` and an in-range sum it returns the quotient; on u32 overflow the
`unwrap` panics (modelled `none`) rather than wrapping; and at `b = 0` the
division panics (modelled `none`). -/
theorem c6_div_ceil_checked (a b : Nat) :
    (1 ≤ b → a + b ≤ U32_MAX → div_ceil a b = some ((a + b - 1) / b)) ∧
    (U32_MAX < a + b → div_ceil a b = none) ∧
    (b = 0 → div_ceil a b = none) := by
  refine ⟨?_, ?_, ?_⟩
  · intro hb h
    have hbz : ¬ b = 0 := by omega
    simp [div_ceil, checked_add, h, hbz]
  · intro h
    have hn : ¬ a + b ≤ U32_MAX := Nat.not_le.mpr h
    simp [div_ceil, checked_add, hn]
  · intro hb
    by_cases h : a + b ≤ U32_MAX
    · simp [div_ceil, checked_add, h, hb]
    · simp [div_ceil, checked_add, h]

/-- Witness for the amended C6 at `a = 10`, `b = 3`. -/
theorem c6_div_ceil_witness : div_ceil 10 3 = some 4 := by
  have h := (c6_div_ceil_checked 10 3).1 (by decide) (by decide)
  rw [h]

/-- Claim C7: `slice(off, len)` fails exactly when `off + len` exceeds the
logical size; otherwise the slice shares the parent allocation at offset
`parent.offset + off` with logical length `len`, and viewing it yields
exactly `b.view()[off .. off + len]`. -/
theorem c7_slice_view (b : BufferImpl α) (off len : Nat) :
    (b.size < off + len → b.slice off len = none) ∧
    (off + len ≤ b.size →
      ∃ s, b.slice off len = some s ∧ s.store = b.store ∧
        s.offset = b.offset + off ∧ s.size = len ∧
        s.view = (b.view.drop off).take len) := by
  constructor
  · intro h
    have hn : ¬ off + len ≤ b.size := Nat.not_le.mpr h
    simp [BufferImpl.slice, hn]
  · intro h
    refine ⟨⟨b.store, len, b.offset + off⟩, ?_, rfl, rfl, rfl, ?_⟩
    · simp [BufferImpl.slice, h]
    · simp only [BufferImpl.view]
      rw [List.drop_take, List.drop_drop, List.take_take]
      have h1 : min len (b.size - off) = len := by omega
      rw [h1]

/-- Witness for C7: slicing a five-element allocation viewed at offset 1. -/
theorem c7_slice_view_witness :
    (BufferImpl.slice (⟨[9, 1, 2, 3, 4], 4, 1⟩ : BufferImpl Nat) 1 2).map
      BufferImpl.view = some [2, 3] := by
  obtain ⟨s, hs, _, _, _, hv⟩ :=
    (c7_slice_view (⟨[9, 1, 2, 3, 4], 4, 1⟩ : BufferImpl Nat) 1 2).2 (by decide)
  rw [hs]
  simp only [Option.map_some']
  rw [hv]
  rfl

/-- Claim C10: for a slice `s` of `b`, `view_mut` hands the callback every
element from the slice offset through the end of the underlying allocation —
whose length is `b.store.length - (b.offset + off)`, not `len` — and writes
the whole allocation back, so a callback can read and modify parent cells
past the slice logical end. -/
theorem c10_view_mut_whole_tail (b s : BufferImpl α) (off len : Nat)
    (f : List α → List α) (h : b.slice off len = some s) :
    s.viewMutArg = b.store.drop (b.offset + off) ∧
    s.viewMutArg.length = b.store.length - (b.offset + off) ∧
    s.view_mut f =
      { store := b.store.take (b.offset + off) ++ f (b.store.drop (b.offset + off)),
        size := len, offset := b.offset + off } := by
  have hs : s = ⟨b.store, len, b.offset + off⟩ := by
    by_cases hle : off + len ≤ b.size
    · simp only [BufferImpl.slice, if_pos hle, Option.some_inj] at h
      exact h.symm
    · simp [BufferImpl.slice, if_neg hle] at h
  subst hs
  refine ⟨rfl, ?_, rfl⟩
  simp [BufferImpl.viewMutArg]

/-- Witness for C10: mutating through a length-2 slice at offset 1 of a
four-element buffer rewrites the parent cell at index 3 as well. -/
theorem c10_view_mut_witness :
    (BufferImpl.view_mut (⟨[1, 2, 3, 4], 2, 1⟩ : BufferImpl Nat)
      (fun l => l.map (fun x => x + 1))).store = [1, 3, 4, 5] := by
  have h := (c10_view_mut_whole_tail (⟨[1, 2, 3, 4], 4, 0⟩ : BufferImpl Nat)
    (⟨[1, 2, 3, 4], 2, 1⟩ : BufferImpl Nat) 1 2
    (fun l => l.map (fun x => x + 1)) rfl).2.2
  rw [h]
  rfl

/-- Claim C4: for every cycle `c` in `[steps - zk, steps)`, the noise pass
(run after the three phases and before sanitization) zeroes every ctrl
column cell `ctrl[j * steps + c]` and sets every data column cell
`data[j * steps + c]` to the draw of the random stream at index
`i * dataSize + j` for `i = c - (steps - zk)` — and distinct cells consume
distinct draws (freshness). -/
theorem c4_zk_noise (steps cs ds zk : Nat) (rng : Nat → Fp) (b : WitBufs)
    (hs : 0 < steps) (hzk : zk ≤ steps) (c : Nat)
    (hc1 : steps - zk ≤ c) (hc2 : c < steps) :
    (∀ j, j < cs → (writeNoise steps cs ds zk rng b).ctrl (j * steps + c) = 0) ∧
    (∀ j, j < ds →
      (writeNoise steps cs ds zk rng b).data (j * steps + c) =
        rng ((c - (steps - zk)) * ds + j)) ∧
    (∀ c' j j', steps - zk ≤ c' → c' < steps → j < ds → j' < ds →
      (c - (steps - zk)) * ds + j = (c' - (steps - zk)) * ds + j' →
      c = c' ∧ j = j') := by
  have hi : c - (steps - zk) < zk := by omega
  have hcr : steps - zk + (c - (steps - zk)) = c := by omega
  refine ⟨?_, ?_, ?_⟩
  · intro j hj
    have h := foldNoise_ctrl_eq steps cs ds zk rng hs hzk (List.range zk) b
      (c - (steps - zk)) j (fun i' h => List.mem_range.mp h) (List.nodup_range zk)
      (List.mem_range.mpr hi) hj
    rw [hcr] at h
    exact h
  · intro j hj
    have h := foldNoise_data_eq steps cs ds zk rng hs hzk (List.range zk) b
      (c - (steps - zk)) j (fun i' h => List.mem_range.mp h) (List.nodup_range zk)
      (List.mem_range.mpr hi) hj
    rw [hcr] at h
    exact h
  · intro c' j j' h1 h2 h3 h4 heq
    have hds : 0 < ds := by omega
    have e1 : ((c - (steps - zk)) * ds + j) % ds = j := by
      rw [Nat.add_comm, Nat.add_mul_mod_self_right, Nat.mod_eq_of_lt h3]
    have e2 : ((c' - (steps - zk)) * ds + j') % ds = j' := by
      rw [Nat.add_comm, Nat.add_mul_mod_self_right, Nat.mod_eq_of_lt h4]
    have hjj : j = j' := by rw [← e1, ← e2, heq]
    have hmm : (c - (steps - zk)) * ds = (c' - (steps - zk)) * ds := by omega
    have hcc := Nat.eq_of_mul_eq_mul_right hds hmm
    exact ⟨by omega, hjj⟩

/-- Witness for C4 at `steps = 2`, `zk = 1`, cycle 1, column 0. -/
theorem c4_zk_noise_witness :
    (writeNoise 2 1 1 1 (fun _ => 5) cBufs).ctrl (0 * 2 + 1) = 0 :=
  (c4_zk_noise 2 1 1 1 (fun _ => 5) cBufs (by decide) (by decide) 1
    (by decide) (by decide)).1 0 (by decide)

theorem phaseThen_some {E : Type} (r : Option E × WitBufs)
    (k : WitBufs → Option E × WitBufs) (e : E) (b' : WitBufs)
    (h : r = (some e, b')) : phaseThen r k = (some e, b') := by
  rw [h]
  rfl

theorem phaseThen_none {E : Type} (r : Option E × WitBufs)
    (k : WitBufs → Option E × WitBufs) (b' : WitBufs)
    (h : r = (none, b')) : phaseThen r k = k b' := by
  rw [h]
  rfl

theorem execute_err1 {E : Type} (p1 p2 p3 : WitBufs → Option E × WitBufs)
    (steps cs ds zk : Nat) (rng : Nat → Fp) (b : WitBufs) (e : E) (b1 : WitBufs)
    (h : p1 b = (some e, b1)) :
    WitnessGenerator.execute p1 p2 p3 steps cs ds zk rng b = (some e, b1) := by
  unfold WitnessGenerator.execute
  exact phaseThen_some _ _ _ _ h

theorem execute_err2 {E : Type} (p1 p2 p3 : WitBufs → Option E × WitBufs)
    (steps cs ds zk : Nat) (rng : Nat → Fp) (b : WitBufs) (b1 : WitBufs) (e : E)
    (b2 : WitBufs) (h1 : p1 b = (none, b1)) (h2 : p2 b1 = (some e, b2)) :
    WitnessGenerator.execute p1 p2 p3 steps cs ds zk rng b = (some e, b2) := by
  unfold WitnessGenerator.execute
  rw [phaseThen_none _ _ _ h1]
  exact phaseThen_some _ _ _ _ h2

theorem execute_err3 {E : Type} (p1 p2 p3 : WitBufs → Option E × WitBufs)
    (steps cs ds zk : Nat) (rng : Nat → Fp) (b : WitBufs) (b1 b2 : WitBufs) (e : E)
    (b3 : WitBufs) (h1 : p1 b = (none, b1)) (h2 : p2 b1 = (none, b2))
    (h3 : p3 b2 = (some e, b3)) :
    WitnessGenerator.execute p1 p2 p3 steps cs ds zk rng b = (some e, b3) := by
  unfold WitnessGenerator.execute
  rw [phaseThen_none _ _ _ h1]
  show phaseThen (p2 b1) _ = _
  rw [phaseThen_none _ _ _ h2]
  exact phaseThen_some _ _ _ _ h3

theorem execute_ok {E : Type} (p1 p2 p3 : WitBufs → Option E × WitBufs)
    (steps cs ds zk : Nat) (rng : Nat → Fp) (b : WitBufs) (b1 b2 b3 : WitBufs)
    (h1 : p1 b = (none, b1)) (h2 : p2 b1 = (none, b2)) (h3 : p3 b2 = (none, b3)) :
    WitnessGenerator.execute p1 p2 p3 steps cs ds zk rng b =
      (none, sanitize (writeNoise steps cs ds zk rng b3)) := by
  unfold WitnessGenerator.execute
  rw [phaseThen_none _ _ _ h1]
  show phaseThen (p2 b1) _ = _
  rw [phaseThen_none _ _ _ h2]
  show phaseThen (p3 b2) _ = _
  rw [phaseThen_none _ _ _ h3]

/-- Claim C2: whenever `execute` returns successfully, no cell of `data` or
`io` equals INVALID; the success state is the element-wise `valid_or_zero`
sanitization of the noise-finalized buffers, which maps INVALID to ZERO and
leaves valid elements unchanged. -/
theorem c2_no_invalid_after_execute {E : Type}
    (p1 p2 p3 : WitBufs → Option E × WitBufs) (steps cs ds zk : Nat)
    (rng : Nat → Fp) (b : WitBufs)
    (h : (WitnessGenerator.execute p1 p2 p3 steps cs ds zk rng b).1 = none) :
    (∀ i, (WitnessGenerator.execute p1 p2 p3 steps cs ds zk rng b).2.data i ≠ INVALID) ∧
    (∀ i, (WitnessGenerator.execute p1 p2 p3 steps cs ds zk rng b).2.io i ≠ INVALID) ∧
    (∃ b3, (WitnessGenerator.execute p1 p2 p3 steps cs ds zk rng b).2 =
      sanitize (writeNoise steps cs ds zk rng b3)) ∧
    (valid_or_zero INVALID = 0) ∧
    (∀ x : Fp, x ≠ INVALID → valid_or_zero x = x) := by
  have hvz0 : valid_or_zero INVALID = 0 := by simp [valid_or_zero]
  have hvz : ∀ x : Fp, x ≠ INVALID → valid_or_zero x = x := by
    intro x hx
    simp [valid_or_zero, hx]
  have hnin : ∀ x : Fp, valid_or_zero x ≠ INVALID := by
    intro x
    unfold valid_or_zero
    split
    · decide
    · next hx => exact hx
  rcases hp1 : p1 b with ⟨o1, b1⟩
  cases o1 with
  | some e =>
    rw [execute_err1 p1 p2 p3 steps cs ds zk rng b e b1 hp1] at h
    simp at h
  | none =>
    rcases hp2 : p2 b1 with ⟨o2, b2⟩
    cases o2 with
    | some e =>
      rw [execute_err2 p1 p2 p3 steps cs ds zk rng b b1 e b2 hp1 hp2] at h
      simp at h
    | none =>
      rcases hp3 : p3 b2 with ⟨o3, b3⟩
      cases o3 with
      | some e =>
        rw [execute_err3 p1 p2 p3 steps cs ds zk rng b b1 b2 e b3 hp1 hp2 hp3] at h
        simp at h
      | none =>
        rw [execute_ok p1 p2 p3 steps cs ds zk rng b b1 b2 b3 hp1 hp2 hp3]
        exact ⟨fun i => hnin _, fun i => hnin _, ⟨b3, rfl⟩, hvz0, hvz⟩

/-- Witness for C2 at concrete identity phases over INVALID-filled data. -/
theorem c2_no_invalid_witness :
    (WitnessGenerator.execute cPhaseOk cPhaseOk cPhaseOk 2 1 1 1 (fun _ => 5)
      cBufs).2.data 0 ≠ INVALID :=
  (c2_no_invalid_after_execute cPhaseOk cPhaseOk cPhaseOk 2 1 1 1 (fun _ => 5)
    cBufs rfl).1 0

/-- Claim C8: `execute` runs the three phases in order and short-circuits on
the first error, returning that phase output state untouched (neither ZK
noise nor sanitization is applied); on success the result is the sanitized,
noise-finalized state of the third phase. -/
theorem c8_short_circuit {E : Type} (p1 p2 p3 : WitBufs → Option E × WitBufs)
    (steps cs ds zk : Nat) (rng : Nat → Fp) (b : WitBufs) :
    (∀ e b1, p1 b = (some e, b1) →
      WitnessGenerator.execute p1 p2 p3 steps cs ds zk rng b = (some e, b1)) ∧
    (∀ b1 e b2, p1 b = (none, b1) → p2 b1 = (some e, b2) →
      WitnessGenerator.execute p1 p2 p3 steps cs ds zk rng b = (some e, b2)) ∧
    (∀ b1 b2 e b3, p1 b = (none, b1) → p2 b1 = (none, b2) → p3 b2 = (some e, b3) →
      WitnessGenerator.execute p1 p2 p3 steps cs ds zk rng b = (some e, b3)) ∧
    (∀ b1 b2 b3, p1 b = (none, b1) → p2 b1 = (none, b2) → p3 b2 = (none, b3) →
      WitnessGenerator.execute p1 p2 p3 steps cs ds zk rng b =
        (none, sanitize (writeNoise steps cs ds zk rng b3))) :=
  ⟨fun e b1 h => execute_err1 p1 p2 p3 steps cs ds zk rng b e b1 h,
   fun b1 e b2 h1 h2 => execute_err2 p1 p2 p3 steps cs ds zk rng b b1 e b2 h1 h2,
   fun b1 b2 e b3 h1 h2 h3 =>
     execute_err3 p1 p2 p3 steps cs ds zk rng b b1 b2 e b3 h1 h2 h3,
   fun b1 b2 b3 h1 h2 h3 =>
     execute_ok p1 p2 p3 steps cs ds zk rng b b1 b2 b3 h1 h2 h3⟩

/-- Witness for C8: a failing first phase short-circuits with its error and
state. -/
theorem c8_short_circuit_witness :
    WitnessGenerator.execute cPhaseErr cPhaseOk cPhaseOk 4 1 1 2 (fun _ => 1)
      cBufs = (some 7, cBufs) :=
  (c8_short_circuit cPhaseErr cPhaseOk cPhaseOk 4 1 1 2 (fun _ => 1) cBufs).1
    7 cBufs rfl

theorem injectCycles_map_inject (L : List Nat) :
    injectCycles (L.map WitEvent.inject) = L := by
  induction L with
  | nil => rfl
  | cons a t ih =>
    show a :: injectCycles (t.map WitEvent.inject) = a :: t
    rw [ih]

theorem injectCycles_map_step (L : List Nat) :
    injectCycles (L.map WitEvent.step) = [] := by
  induction L with
  | nil => rfl
  | cons a t ih =>
    show injectCycles (t.map WitEvent.step) = []
    exact ih

theorem injectCycles_append (l1 l2 : List WitEvent) :
    injectCycles (l1 ++ l2) = injectCycles l1 ++ injectCycles l2 := by
  simp [injectCycles, List.filterMap_append]

theorem injectCycles_sortEv (d : SortDom) :
    injectCycles [WitEvent.sortEv d] = [] := rfl

theorem injectCycles_load : injectCycles [WitEvent.load] = [] := rfl

/-- Claim C5: in the verify-bytes phase the sort of the bytes columns is the
first event (before any stepping), the back-injection loop covers exactly
the cycles `[1, steps - ZK_CYCLES)` — so `last_cycle = steps - ZK_CYCLES`
and the loop starts at 1 — while the verify-RAM and execute phases inject
over `[0, last_cycle)` starting at 0. -/
theorem c5_verify_bytes_structure (steps zk : Nat) :
    ((computeVerifyBytesEvents steps zk false).head? =
      some (WitEvent.sortEv SortDom.bytes)) ∧
    (∀ c, c ∈ injectCycles (computeVerifyBytesEvents steps zk false) ↔
      1 ≤ c ∧ c < steps - zk) ∧
    (∀ c, c ∈ injectCycles (computeVerifyRamEvents steps zk false) ↔
      c < steps - zk) ∧
    (∀ last c, c ∈ injectCycles (computeExecuteEvents last false) ↔ c < last) := by
  refine ⟨rfl, ?_, ?_, ?_⟩
  · intro c
    simp only [computeVerifyBytesEvents, Bool.false_eq_true, if_false]
    rw [injectCycles_append, injectCycles_append, injectCycles_sortEv,
      injectCycles_map_inject, injectCycles_map_step]
    simp only [List.nil_append, List.append_nil, List.mem_range'_1]
    omega
  · intro c
    simp only [computeVerifyRamEvents, Bool.false_eq_true, if_false]
    rw [injectCycles_append, injectCycles_append, injectCycles_sortEv,
      injectCycles_map_inject, injectCycles_map_step]
    simp only [List.nil_append, List.append_nil, List.mem_range]
  · intro last c
    simp only [computeExecuteEvents, Bool.false_eq_true, if_false]
    rw [injectCycles_append, injectCycles_append, injectCycles_load,
      injectCycles_map_inject, injectCycles_map_step]
    simp only [List.nil_append, List.append_nil, List.mem_range]

/-- Claim C3 as stated is false: `gather_sample` and `mix_poly_coeffs`
launch kernels on the HAL stream and return without a
`stream.synchronize()`. -/
theorem c3_counterexample :
    syncAtReturn HalOp.gatherSample = false ∧
    syncAtReturn HalOp.mixPolyCoeffs = false := by decide

/-- Claim C3 (amended): every public HAL operation other than
`gather_sample` and `mix_poly_coeffs` has no outstanding stream work when it
returns, i.e. blocks until its enqueued device work has completed. -/
theorem c3_sync_except_two (op : HalOp) (h1 : op ≠ HalOp.gatherSample)
    (h2 : op ≠ HalOp.mixPolyCoeffs) : syncAtReturn op = true := by
  cases op <;> first | rfl | exact absurd rfl h1 | exact absurd rfl h2

/-- Witness for the amended C3 at `fri_fold`. -/
theorem c3_sync_witness : syncAtReturn HalOp.friFold = true :=
  c3_sync_except_two HalOp.friFold (by decide) (by decide)


/-! ## Sequential/parallel equivalence proofs -/

theorem phaseVal_eq_stepf_ideal (ph : PhaseSpec Row Comp) (d0 : Nat → Row) (c : Nat) :
    phaseVal ph d0 c = ph.stepf c (phaseIdeal ph d0) := by
  rw [phaseVal]
  by_cases hc : ph.start ≤ c
  · apply ph.frame c _ _ hc
    · intro r x
      by_cases hr : r < c
      · simp only [dif_pos hr, phaseIdeal, ph.set_set]
      · simp only [dif_neg hr, phaseIdeal, ph.set_set]
    · intro r hr hw
      simp only [dif_pos hr, phaseIdeal]
  · apply ph.noread c _ _ (Nat.lt_of_not_le hc)
    intro r x
    by_cases hr : r < c
    · simp only [dif_pos hr, phaseIdeal, ph.set_set]
    · simp only [dif_neg hr, phaseIdeal, ph.set_set]

theorem seqRun_eq_ideal (ph : PhaseSpec Row Comp) (d0 : Nat → Row) (last : Nat) :
    seqRun ph last d0 = fun r => if r < last then phaseIdeal ph d0 r else d0 r := by
  induction last with
  | zero =>
    funext r
    simp [seqRun]
  | succ n ih =>
    have hstep : seqRun ph (n + 1) d0 =
        Function.update (seqRun ph n d0) n
          (ph.set (seqRun ph n d0 n) (ph.stepf n (seqRun ph n d0))) := by
      unfold seqRun
      rw [List.range_succ, List.foldl_append, List.foldl_cons, List.foldl_nil]
    rw [hstep, ih]
    have hval : ph.stepf n (fun r => if r < n then phaseIdeal ph d0 r else d0 r) =
        phaseVal ph d0 n := by
      rw [phaseVal_eq_stepf_ideal]
      by_cases hc : ph.start ≤ n
      · apply ph.frame n _ _ hc
        · intro r x
          by_cases hr : r < n
          · simp only [if_pos hr]
          · simp only [if_neg hr, phaseIdeal, ph.set_set]
        · intro r hr hw
          simp only [if_pos hr]
      · apply ph.noread n _ _ (Nat.lt_of_not_le hc)
        intro r x
        by_cases hr : r < n
        · simp only [if_pos hr]
        · simp only [if_neg hr, phaseIdeal, ph.set_set]
    funext r
    by_cases hre : r = n
    · rw [hre, Function.update_same, if_pos (Nat.lt_succ_self n)]
      show ph.set (if n < n then phaseIdeal ph d0 n else d0 n)
          (ph.stepf n fun r => if r < n then phaseIdeal ph d0 r else d0 r) =
        phaseIdeal ph d0 n
      rw [if_neg (lt_irrefl n), hval]
      rfl
    · rw [Function.update_noteq hre]
      by_cases hr : r < n
      · rw [if_pos hr, if_pos (by omega : r < n + 1)]
      · rw [if_neg hr, if_neg (by omega : ¬ r < n + 1)]

theorem injectFold_eq (ph : PhaseSpec Row Comp) (d0 : Nat → Row) (c : Nat)
    (K : List Nat) :
    ∀ d, (∀ q x, ph.set (d q) x = ph.set (d0 q) x) →
      (K.foldl
        (fun d k =>
          if k ≤ c then
            Function.update d (c - k) (ph.set (d (c - k)) (phaseVal ph d0 (c - k)))
          else d) d) =
      fun q => if ∃ k ∈ K, k ≤ c ∧ q = c - k then phaseIdeal ph d0 q else d q := by
  induction K with
  | nil =>
    intro d hoff
    funext q
    simp
  | cons a K ih =>
    intro d hoff
    simp only [List.foldl_cons]
    by_cases hac : a ≤ c
    · rw [if_pos hac]
      set upd := Function.update d (c - a) (ph.set (d (c - a)) (phaseVal ph d0 (c - a)))
        with hupd
      have hoff' : ∀ q x, ph.set (upd q) x = ph.set (d0 q) x := by
        intro q x
        by_cases hq : q = c - a
        · rw [hupd, hq, Function.update_same, ph.set_set, hoff]
        · rw [hupd, Function.update_noteq hq, hoff]
      rw [ih upd hoff']
      funext q
      by_cases h1 : ∃ k ∈ K, k ≤ c ∧ q = c - k
      · have h2 : ∃ k ∈ a :: K, k ≤ c ∧ q = c - k := by
          obtain ⟨k, hk, hkk⟩ := h1
          exact ⟨k, List.mem_cons_of_mem a hk, hkk⟩
        rw [if_pos h1, if_pos h2]
      · by_cases hq : q = c - a
        · have h2 : ∃ k ∈ a :: K, k ≤ c ∧ q = c - k :=
            ⟨a, List.mem_cons_self a K, hac, hq⟩
          rw [if_neg h1, if_pos h2, hq, hupd, Function.update_same, hoff]
          rfl
        · have h2 : ¬ ∃ k ∈ a :: K, k ≤ c ∧ q = c - k := by
            rintro ⟨k, hk, hkc, hqk⟩
            rcases List.mem_cons.mp hk with rfl | hk2
            · exact hq hqk
            · exact h1 ⟨k, hk2, hkc, hqk⟩
          rw [if_neg h1, if_neg h2, hupd, Function.update_noteq hq]
    · rw [if_neg hac, ih d hoff]
      funext q
      have hiff : (∃ k ∈ a :: K, k ≤ c ∧ q = c - k) ↔ (∃ k ∈ K, k ≤ c ∧ q = c - k) := by
        constructor
        · rintro ⟨k, hk, hkc, hqk⟩
          rcases List.mem_cons.mp hk with rfl | hk2
          · exact absurd hkc hac
          · exact ⟨k, hk2, hkc, hqk⟩
        · rintro ⟨k, hk, hkc, hqk⟩
          exact ⟨k, List.mem_cons_of_mem a hk, hkc, hqk⟩
      by_cases h1 : ∃ k ∈ K, k ≤ c ∧ q = c - k
      · rw [if_pos h1, if_pos (hiff.mpr h1)]
      · rw [if_neg h1, if_neg (fun hh => h1 (hiff.mp hh))]

theorem injectBacks_eq (ph : PhaseSpec Row Comp) (d0 d : Nat → Row) (c : Nat)
    (hoff : ∀ q x, ph.set (d q) x = ph.set (d0 q) x) :
    injectBacks ph d0 d c =
      fun q => if ∃ k ∈ List.range' 1 ph.w, k ≤ c ∧ q = c - k
        then phaseIdeal ph d0 q else d q := by
  unfold injectBacks
  exact injectFold_eq ph d0 c (List.range' 1 ph.w) d hoff

theorem injectRunFold_eq (ph : PhaseSpec Row Comp) (d0 : Nat → Row) (L : List Nat) :
    ∀ d, (∀ q x, ph.set (d q) x = ph.set (d0 q) x) →
      (L.foldl (injectBacks ph d0) d) =
      fun q => if ∃ c ∈ L, ∃ k ∈ List.range' 1 ph.w, k ≤ c ∧ q = c - k
        then phaseIdeal ph d0 q else d q := by
  induction L with
  | nil =>
    intro d hoff
    funext q
    simp
  | cons a L ih =>
    intro d hoff
    simp only [List.foldl_cons]
    rw [injectBacks_eq ph d0 d a hoff]
    set d1 := fun q => if ∃ k ∈ List.range' 1 ph.w, k ≤ a ∧ q = a - k
      then phaseIdeal ph d0 q else d q with hd1
    have hoff1 : ∀ q x, ph.set (d1 q) x = ph.set (d0 q) x := by
      intro q x
      simp only [hd1]
      by_cases hq : ∃ k ∈ List.range' 1 ph.w, k ≤ a ∧ q = a - k
      · simp only [if_pos hq, phaseIdeal, ph.set_set]
      · simp only [if_neg hq]
        exact hoff q x
    rw [ih d1 hoff1]
    funext q
    by_cases h1 : ∃ c2 ∈ L, ∃ k ∈ List.range' 1 ph.w, k ≤ c2 ∧ q = c2 - k
    · have h2 : ∃ c2 ∈ a :: L, ∃ k ∈ List.range' 1 ph.w, k ≤ c2 ∧ q = c2 - k := by
        obtain ⟨c2, hc2, hk⟩ := h1
        exact ⟨c2, List.mem_cons_of_mem a hc2, hk⟩
      rw [if_pos h1, if_pos h2]
    · by_cases hq : ∃ k ∈ List.range' 1 ph.w, k ≤ a ∧ q = a - k
      · have h2 : ∃ c2 ∈ a :: L, ∃ k ∈ List.range' 1 ph.w, k ≤ c2 ∧ q = c2 - k :=
          ⟨a, List.mem_cons_self a L, hq⟩
        rw [if_neg h1, if_pos h2]
        simp only [hd1]
        rw [if_pos hq]
      · have h2 : ¬ ∃ c2 ∈ a :: L, ∃ k ∈ List.range' 1 ph.w, k ≤ c2 ∧ q = c2 - k := by
          rintro ⟨c2, hc2, hk⟩
          rcases List.mem_cons.mp hc2 with rfl | hc3
          · exact hq hk
          · exact h1 ⟨c2, hc3, hk⟩
        rw [if_neg h1, if_neg h2]
        simp only [hd1]
        rw [if_neg hq]

theorem injectRun_eq (ph : PhaseSpec Row Comp) (last : Nat) (d0 : Nat → Row) :
    injectRun ph last d0 =
      fun q => if injectedIn ph.start last ph.w q then phaseIdeal ph d0 q else d0 q := by
  unfold injectRun injectedIn
  exact injectRunFold_eq ph d0 (List.range' ph.start (last - ph.start)) d0
    (fun q x => rfl)

theorem parRun_eq_seqRun (ph : PhaseSpec Row Comp) (last : Nat) (d0 : Nat → Row) :
    parRun ph last d0 = seqRun ph last d0 := by
  rw [seqRun_eq_ideal]
  funext r
  unfold parRun
  simp only [injectRun_eq]
  by_cases hr : r < last
  · rw [if_pos hr, if_pos hr]
    have hstep : ph.stepf r
        (fun q => if injectedIn ph.start last ph.w q then phaseIdeal ph d0 q else d0 q) =
        phaseVal ph d0 r := by
      rw [phaseVal_eq_stepf_ideal]
      by_cases hc : ph.start ≤ r
      · apply ph.frame r _ _ hc
        · intro q x
          by_cases hq : injectedIn ph.start last ph.w q
          · simp only [if_pos hq, phaseIdeal, ph.set_set]
          · simp only [if_neg hq, phaseIdeal, ph.set_set]
        · intro q hql hqw
          have hq : injectedIn ph.start last ph.w q := by
            unfold injectedIn
            exact ⟨r, List.mem_range'_1.mpr (by omega), r - q,
              List.mem_range'_1.mpr (by omega), by omega, by omega⟩
          rw [if_pos hq]
      · apply ph.noread r _ _ (Nat.lt_of_not_le hc)
        intro q x
        by_cases hq : injectedIn ph.start last ph.w q
        · simp only [if_pos hq, phaseIdeal, ph.set_set]
        · simp only [if_neg hq, phaseIdeal, ph.set_set]
    rw [hstep]
    by_cases hq : injectedIn ph.start last ph.w r
    · rw [if_pos hq]
      simp only [phaseIdeal, ph.set_set]
    · rw [if_neg hq]
      rfl
  · rw [if_neg hr, if_neg hr]
    have hq : ¬ injectedIn ph.start last ph.w r := by
      unfold injectedIn
      rintro ⟨c2, hc2, k, hk, hkc, hqk⟩
      rw [List.mem_range'_1] at hc2 hk
      omega
    rw [if_neg hq]

/-- Claim C1: for every model of the three phases (with the back-window read
discipline the spec states) and any pair of noise streams, `execute` in
sequential mode (plain loop, no explicit back injection) and in parallel
mode (back-injection loop for each phase, then parallel step dispatch)
produce identical `ctrl`, identical `io`, and identical `data` on every
cycle below `steps - ZK_CYCLES`; only the randomized trailing ZK-noise block
may differ. -/
theorem c1_seq_par_equivalent (m : WitgenModel Ctrl Row Comp Io)
    (rngSeq rngPar : Nat → Row) (s : ExecState Ctrl Row Io) :
    (executeSeqM m rngSeq s).ctrl = (executeParM m rngPar s).ctrl ∧
    (executeSeqM m rngSeq s).io = (executeParM m rngPar s).io ∧
    (∀ r, r < m.steps - m.zk →
      (executeSeqM m rngSeq s).dataF r = (executeParM m rngPar s).dataF r) := by
  refine ⟨rfl, rfl, ?_⟩
  intro r hr
  unfold executeSeqM executeParM
  simp only [parRun_eq_seqRun]
  have hcond : ¬ (m.steps - m.zk ≤ r ∧ r < m.steps) := by omega
  rw [if_neg hcond, if_neg hcond]

/-- Witness for C1 at the concrete model `wModel`: data row 3 agrees between
the two modes despite different noise streams. -/
theorem c1_seq_par_witness :
    (executeSeqM wModel (fun _ => (0, 0)) ⟨0, fun _ => (0, 0), 0⟩).dataF 3 =
      (executeParM wModel (fun _ => (9, 9)) ⟨0, fun _ => (0, 0), 0⟩).dataF 3 :=
  (c1_seq_par_equivalent wModel (fun _ => (0, 0)) (fun _ => (9, 9))
    ⟨0, fun _ => (0, 0), 0⟩).2.2 3 (by decide)

end Risc0
